import Mathlib

/-!
Verification of the SpikeFI fault-injection campaign engine (spikefi/core.py)
against its natural-language specification.

The development shallowly embeds the campaign orchestration code:
tensors are an abstract type `T` with decidable equality (torch.equal),
network stages are functions `Nat → T → T` (one per entry of
`layers_info.order`, each stage being the layer call followed by
`slayer.spike(slayer.psp(.))`), and the data model of faults, sites and
rounds is embedded as plain inductive data.  Classes of the repository
that live in files not shipped here (spikefi/fault.py: Fault, FaultSite,
FaultRound, FaultModel; spikefi/utils/layer.py: LayersInfo) are modelled
from the spec where their behavior is load-bearing; each such definition
carries a note in its doc comment.
-/

namespace SpikeFI

/-! ## Evaluation model (core.py: `_forward_opt_wrapper`, `_evaluate_optimized`) -/

/-- Embedding of `forward_opt` (core.py lines 360-375): the patched forward
function applies, in order, the stages whose index `i` of the layer order
(`List.range n`) satisfies `start_idx ≤ i ≤ end_idx`.  Each abstract stage
`stages i` stands for the layer call plus the spike/psp post-processing. -/
def forward_opt {T : Type} (n : Nat) (stages : Nat → T → T) (s e : Nat) (x : T) : T :=
  ((List.range n).filter (fun i => decide (s ≤ i) && decide (i ≤ e))).foldl (fun a i => stages i a) x

/-- Embedding of the golden activation cache (core.py lines 299-301):
`golden_spikes[0]` is the batch input and `golden_spikes[i+1]` is the golden
network evaluated on `golden_spikes[i]` over the single stage `i`. -/
def goldenSpikes {T : Type} (n : Nat) (g : Nat → T → T) (input : T) : Nat → T
  | 0 => input
  | i + 1 => forward_opt n g i i (goldenSpikes n g input i)

/-- Modelled from the spec: the derived read-only view `OptimizedFaultRound`
(spikefi/fault.py, not shipped) as consumed by `_evaluate_optimized`:
earliest/latest affected stage index, whether the output stage is targeted,
and whether the round is empty (Python truthiness of the round object). -/
structure OptRound where
  early_idx : Nat
  late_idx : Nat
  is_out_faulty : Bool
  isEmpty : Bool

/-- Embedding of the per-round body of `_evaluate_optimized`
(core.py lines 305-318) for one batch.  `g` and `f` are the golden and
faulty stage functions, `outHook` is the in-place output perturbation
applied through `out_neuron_callable` when the output stage is faulty,
and `n` is the number of stages.  An empty round reports the cached final
golden activation `golden_spikes[-1]`; a non-empty, non-output-faulty round
runs the faulty sub-range, advances one stage, compares with the golden
cache (torch.equal) and either reuses the golden final activation or
continues the faulty computation from stage `late_idx + 2` to the end. -/
def evalRoundOutput {T : Type} [DecidableEq T] (n : Nat) (g f : Nat → T → T)
    (outHook : T → T) (input : T) (o : OptRound) : T :=
  if o.isEmpty then
    goldenSpikes n g input n
  else
    let late_out := forward_opt n f o.early_idx o.late_idx (goldenSpikes n g input o.early_idx)
    if o.is_out_faulty then
      outHook late_out
    else
      let late_next_out := forward_opt n f (o.late_idx + 1) (o.late_idx + 1) late_out
      if late_next_out = goldenSpikes n g input (o.late_idx + 2) then
        goldenSpikes n g input n
      else
        forward_opt n f (o.late_idx + 2) (n - 1) late_next_out

/-- Embedding of the per-round statistics accumulator fields touched by
`_advance_performance` (core.py lines 328-332). -/
structure Stats where
  correct : Nat
  num : Nat
  lossSum : Int

/-- Embedding of `_advance_performance` (core.py lines 328-332): the number
of correct predictions extracted from the reported output is added to the
running correct count, the batch size to the sample count, and, when an
error metric is supplied, its value on the output to the loss sum.
`countCorrect` abstracts `torch.sum(snn.predict.getClass(output) == label)`
for the batch's fixed labels. -/
def advancePerformance {T : Type} (countCorrect : T → Nat) (numLabels : Nat)
    (lossOf : Option (T → Int)) (st : Stats) (output : T) : Stats :=
  { correct := st.correct + countCorrect output
    num := st.num + numLabels
    lossSum := st.lossSum + (match lossOf with | some e => e output | none => 0) }

/-! ## Fault entity model and `Campaign.validate` -/

/-- Modelled from the spec: a Fault Site (spikefi/fault.py, not shipped) is a
layer name plus a 4-component coordinate.  Component 0 is either a concrete
channel index (synaptic faults) or the wildcard slice over all positions
(neuronal faults, written `none`); components 1-3 are concrete indices
as produced by `define_random` (core.py lines 99-108). -/
structure FaultSiteM where
  layer : String
  pos0 : Option Int
  pos1 : Int
  pos2 : Int
  pos3 : Int
deriving DecidableEq

/-- Modelled from the spec: the slice of a Fault (spikefi/fault.py, not
shipped) that `Campaign.validate` consumes: its model's target flags
(`is_synaptic`, `is_parametric`), whether a parametric model's parameter
name is supported by the campaign's neuron model (`param_name in
slayer.neuron`, core.py line 124), and its list of defined sites. -/
structure FaultM where
  is_syn : Bool
  is_param : Bool
  param_ok : Bool
  sites : List FaultSiteM
deriving DecidableEq

/-- Modelled from the spec: the part of `LayersInfo` (spikefi/utils/layer.py,
not shipped) that the campaign operations read: the injectability predicate
and the per-layer synaptic (4-axis) and neuronal (3-axis) shapes returned by
`get_shapes`. -/
structure SfLayersInfo where
  injectable : String → Bool
  shapeSyn : String → Nat × Nat × Nat × Nat
  shapeNeu : String → Nat × Nat × Nat

/-- Embedding of the slice-style range check of core.py lines 135 and 141:
a concrete coordinate `c` on an axis of size `dim` passes when
`-dim <= c < dim`. -/
def inRangeI (c : Int) (dim : Nat) : Bool :=
  decide (-(dim : Int) ≤ c) && decide (c < (dim : Int))

/-- Embedding of the per-site validity check of `Campaign.validate`
(core.py lines 130-144): the layer must be injectable; for synaptic faults
coordinate 0 is checked against axis 0 of the synaptic shape and
coordinates 1-3 against axes 1-3; for neuronal faults coordinates 1-3 are
checked against axes 0-2 of the neuronal shape (the loop index shift
`si = i - (not is_syn)`) and the wildcard coordinate 0 is not checked.
A wildcard channel on a synaptic site never occurs in the source
(`define_random`, core.py line 101, always assigns it a concrete index). -/
def validSite (li : SfLayersInfo) (isSyn : Bool) (s : FaultSiteM) : Bool :=
  li.injectable s.layer &&
    (if isSyn then
      (match s.pos0 with
       | some c => inRangeI c (li.shapeSyn s.layer).1
       | none => false) &&
      inRangeI s.pos1 (li.shapeSyn s.layer).2.1 &&
      inRangeI s.pos2 (li.shapeSyn s.layer).2.2.1 &&
      inRangeI s.pos3 (li.shapeSyn s.layer).2.2.2
    else
      inRangeI s.pos1 (li.shapeNeu s.layer).1 &&
      inRangeI s.pos2 (li.shapeNeu s.layer).2.1 &&
      inRangeI s.pos3 (li.shapeNeu s.layer).2.2)

/-- Embedding of the per-fault body of `Campaign.validate` (core.py lines
123-148): a parametric fault whose parameter name is unsupported is dropped
whole; otherwise the invalid sites are removed and a fault whose site set
becomes empty is dropped (Python truthiness of `f`). -/
def validateFault (li : SfLayersInfo) (f : FaultM) : Option FaultM :=
  if f.is_param && !f.param_ok then
    none
  else
    let kept := f.sites.filter (validSite li f.is_syn)
    if kept.isEmpty then none else some { f with sites := kept }

/-- Embedding of `Campaign.validate` (core.py lines 118-150) on a list of
faults: the surviving faults in order. -/
def validate (li : SfLayersInfo) (fs : List FaultM) : List FaultM :=
  fs.filterMap (validateFault li)

/-- Specification-side reading of the claim: a concrete coordinate on a
registered axis of size `dim` must satisfy `-dim ≤ c < dim`; a wildcard
component is unconstrained. -/
def coordInRangeSpec (c : Option Int) (dim : Nat) : Prop :=
  ∀ v, c = some v → (-(dim : Int) ≤ v ∧ v < (dim : Int))

/-- Specification-side reading of site validity: the layer is injectable and
every concrete coordinate is within range for the axis it addresses on the
tensor the site resolves against (4 synaptic axes, or neuronal axes 0-2 for
components 1-3 with the wildcard component 0 addressing no registered axis). -/
def siteValidSpec (li : SfLayersInfo) (isSyn : Bool) (s : FaultSiteM) : Prop :=
  li.injectable s.layer = true ∧
    (if isSyn then
      coordInRangeSpec s.pos0 (li.shapeSyn s.layer).1 ∧
      (-(((li.shapeSyn s.layer).2.1 : Nat) : Int) ≤ s.pos1 ∧ s.pos1 < ((li.shapeSyn s.layer).2.1 : Int)) ∧
      (-(((li.shapeSyn s.layer).2.2.1 : Nat) : Int) ≤ s.pos2 ∧ s.pos2 < ((li.shapeSyn s.layer).2.2.1 : Int)) ∧
      (-(((li.shapeSyn s.layer).2.2.2 : Nat) : Int) ≤ s.pos3 ∧ s.pos3 < ((li.shapeSyn s.layer).2.2.2 : Int))
    else
      (-(((li.shapeNeu s.layer).1 : Nat) : Int) ≤ s.pos1 ∧ s.pos1 < ((li.shapeNeu s.layer).1 : Int)) ∧
      (-(((li.shapeNeu s.layer).2.1 : Nat) : Int) ≤ s.pos2 ∧ s.pos2 < ((li.shapeNeu s.layer).2.1 : Int)) ∧
      (-(((li.shapeNeu s.layer).2.2 : Nat) : Int) ≤ s.pos3 ∧ s.pos3 < ((li.shapeNeu s.layer).2.2 : Int)))

/-! ## Campaign round bookkeeping: `inject`, `then_inject`, `eject`,
`run_complete` -/

/-- Modelled from the spec: a Fault Round (spikefi/fault.py, not shipped) is
effectively a collection of Faults; `insert_many` adds faults to it and
`extract_many` removes the given faults.  It is embedded as a list. -/
abbrev RoundM : Type := List FaultM

/-- The campaign state read and written by the round bookkeeping operations:
the ordered sequence of fault rounds (`self.rounds`). -/
structure CampaignSt where
  rounds : List RoundM

/-- Replace the element at index `n` by `f` applied to it (in-place update of
a Python list entry). -/
def listUpdate {α : Type} : List α → Nat → (α → α) → List α
  | [], _, _ => []
  | a :: l, 0, f => f a :: l
  | a :: l, n + 1, f => a :: listUpdate l n f

/-- Python list indexing: a negative index counts from the end. -/
def pyIndex (n : Nat) (i : Int) : Nat :=
  (if i < 0 then (n : Int) + i else i).toNat

/-- Embedding of `Campaign.inject` (core.py lines 75-83): the round index is
asserted to lie in `[-len(rounds), len(rounds))` before anything else; on
success the faults are validated and the survivors inserted into the round
at that (possibly negative) index and returned.  `define_random` (called
between the assert and `validate`) is the identity on the fully defined
sites modelled here, so it is omitted. -/
def inject (li : SfLayersInfo) (fs : List FaultM) (ridx : Int) (st : CampaignSt) :
    Except String (CampaignSt × List FaultM) :=
  if -(st.rounds.length : Int) ≤ ridx ∧ ridx < (st.rounds.length : Int) then
    let inj := validate li fs
    .ok (⟨listUpdate st.rounds (pyIndex st.rounds.length ridx) (fun r => r ++ inj)⟩, inj)
  else
    .error "Invalid round index"

/-- Embedding of `Campaign.then_inject` (core.py lines 152-154): append a
fresh empty round, then inject into the last round. -/
def then_inject (li : SfLayersInfo) (fs : List FaultM) (st : CampaignSt) :
    Except String (CampaignSt × List FaultM) :=
  inject li fs (-1) ⟨st.rounds ++ [([] : RoundM)]⟩

/-- Removal of the given faults from a round
(`FaultRound.extract_many`, spikefi/fault.py, not shipped; modelled from the
spec as dropping every listed fault from the round's fault collection). -/
def extractMany (fs : List FaultM) (r : RoundM) : RoundM :=
  r.filter (fun f => decide (f ∉ fs))

/-- Python truthiness of the `round_idx` argument of `eject` (core.py line
161): absent (`None`) and `0` are falsy, every other integer is truthy. -/
def truthyIdx : Option Int → Bool
  | none => false
  | some i => decide (i ≠ 0)

/-- Python truthiness of the `faults` argument of `eject` (core.py lines
163, 166, 171): absent (`None`) and the empty collection are falsy. -/
def truthyFaults : Option (List FaultM) → Bool
  | none => false
  | some fs => !fs.isEmpty

/-- Embedding of the eject-from-all-rounds loop of `Campaign.eject`
(core.py lines 171-175): each round in turn has the faults extracted; as
soon as a round becomes empty the source executes `self.rounds.pop(r)` with
the round object itself as argument, which raises `TypeError` because
`list.pop` requires an integer index and a FaultRound (a fault mapping,
spikefi/fault.py, not shipped) is not one.  Rounds already processed keep
their extraction, but the call aborts. -/
def ejectAllLoop (fs : List FaultM) : List RoundM → Except String (List RoundM)
  | [] => .ok []
  | r :: rest =>
    let r' := extractMany fs r
    if r'.isEmpty then
      .error "TypeError: FaultRound object cannot be interpreted as an integer"
    else
      (ejectAllLoop fs rest).map (fun l => r' :: l)

/-- Embedding of `Campaign.eject` (core.py lines 156-181).  The specific-
round branch is taken only when `round_idx` is truthy; it extracts the given
faults from that round (Python negative indexing, IndexError when out of
range) and pops the round when no faults were given or the round became
empty.  The all-rounds branch extracts from every round (raising as
described in `ejectAllLoop` when one empties) or clears all rounds.  When
no round remains after a branch completes normally, a single empty round is
reinstated (core.py lines 180-181). -/
def eject (ofs : Option (List FaultM)) (oidx : Option Int) (rounds : List RoundM) :
    Except String (List RoundM) :=
  let res : Except String (List RoundM) :=
    if truthyIdx oidx then
      match oidx with
      | some i =>
        if -(rounds.length : Int) ≤ i ∧ i < (rounds.length : Int) then
          let j := pyIndex rounds.length i
          let rounds1 :=
            if truthyFaults ofs then
              listUpdate rounds j (extractMany (ofs.getD []))
            else rounds
          if truthyFaults ofs = false ∨ ((rounds1.get? j).getD []).isEmpty then
            .ok (rounds1.eraseIdx j)
          else
            .ok rounds1
        else
          .error "IndexError: list index out of range"
      | none => .error "unreachable"
    else
      if truthyFaults ofs then
        ejectAllLoop (ofs.getD []) rounds
      else
        .ok []
  res.map (fun rs => if rs.isEmpty then [([] : RoundM)] else rs)

/-- The rounds list of a freshly constructed campaign
(`Campaign.__init__`, core.py line 44): a single empty round. -/
def initRounds : CampaignSt := ⟨[([] : RoundM)]⟩

/-- The exhaustive single-site fault of `run_complete` (core.py lines
353-354) for a non-synaptic model: one site on the given layer with the
wildcard on component 0 and the concrete coordinate `(l, m, n)`. -/
def mkCompleteFault (isp pok : Bool) (lay : String) (l m n : Nat) : FaultM :=
  ⟨false, isp, pok, [⟨lay, none, (l : Int), (m : Int), (n : Int)⟩]⟩

/-- The coordinate enumeration order of the nested loops of `run_complete`
(core.py lines 350-352) over a neuronal shape `(C, H, W)`. -/
def enumShape (C H W : Nat) : List (Nat × Nat × Nat) :=
  (List.range C).flatMap fun l =>
    (List.range H).flatMap fun m =>
      (List.range W).map fun n => (l, m, n)

/-- The guard of `_pre_run` (core.py lines 206-207): an empty rounds list is
replaced by a single empty round before evaluation. -/
def preRunAdjust (st : CampaignSt) : CampaignSt :=
  if st.rounds.isEmpty then ⟨[([] : RoundM)]⟩ else st

/-- Embedding of the round construction of `Campaign.run_complete`
(core.py lines 334-356) for one injectable layer and a non-synaptic fault
model: the pre-existing rounds are cleared (`self.rounds.clear()`, line 345,
hence the prior state `st0` is discarded), then one `then_inject` per
coordinate of the layer's neuronal shape, enumerated by the nested loops,
followed by the `_pre_run` empty-rounds guard of the final `run` call. -/
def run_complete_rounds (li : SfLayersInfo) (isp pok : Bool) (lay : String)
    (st0 : CampaignSt) : CampaignSt :=
  let _ := st0
  let sh := li.shapeNeu lay
  preRunAdjust ((enumShape sh.1 sh.2.1 sh.2.2).foldl (fun st c =>
    match then_inject li [mkCompleteFault isp pok lay c.1 c.2.1 c.2.2] st with
    | .ok p => p.1
    | .error _ => st) ⟨[]⟩)

/-! ## Synaptic perturb/restore hooks -/

/-- Modelled from the spec: the data of one synaptic Fault as consumed by the
synaptic hooks: its sites (as unrolled weight-tensor indices, `site.unroll()`)
and its model's perturbation function.  The spec requires the model to be
able to reconstruct the original value, which it does by saving the
original per site (`perturb_store`) and returning it (`restore`);
spikefi/fault.py is not shipped. -/
structure SynFault (I V : Type) where
  sites : List I
  perturb : V → I → V

/-- Pointwise update of a weight assignment. -/
def updFun {I V : Type} [DecidableEq I] (w : I → V) (s : I) (v : V) : I → V :=
  fun j => if j = s then v else w j

/-- Embedding of the site loop of `_synaptic_pre_hook_wrapper` (core.py
lines 402-410) for one fault: each site's current weight is saved into the
fault model's per-site store and replaced by its perturbation
(`layer.weight[ind] = fault.model.perturb_store(layer.weight[ind].item(), site)`). -/
def perturbSitesStore {I V : Type} [DecidableEq I] (pf : V → I → V) :
    List I → (I → V) → (I → Option V) → ((I → V) × (I → Option V))
  | [], w, st => (w, st)
  | s :: rest, w, st =>
    perturbSitesStore pf rest (updFun w s (pf (w s) s)) (fun j => if j = s then some (w s) else st j)

/-- Embedding of the fault loop of `_synaptic_pre_hook_wrapper` (core.py
lines 402-410): the faults of the active round targeting the layer are
processed in order, each starting from an empty store. -/
def synapticPreAll {I V : Type} [DecidableEq I] :
    List (SynFault I V) → (I → V) → ((I → V) × List (I → Option V))
  | [], w => (w, [])
  | f :: fs, w =>
    let p := perturbSitesStore f.perturb f.sites w (fun _ => none)
    let q := synapticPreAll fs p.1
    (q.1, p.2 :: q.2)

/-- Embedding of the site loop of `_synaptic_hook_wrapper` (core.py lines
413-420) for one fault: each site's weight is overwritten with the value the
fault model saved for it (`layer.weight[site.unroll()] = fault.model.restore(site)`). -/
def restoreSitesW {I V : Type} [DecidableEq I] [Inhabited V] (st : I → Option V) :
    List I → (I → V) → (I → V)
  | [], w => w
  | s :: rest, w => restoreSitesW st rest (updFun w s ((st s).getD default))

/-- Embedding of the fault loop of `_synaptic_hook_wrapper` (core.py lines
413-420): the same faults, in the same order as the pre-hook, each restoring
from its own store. -/
def synapticPostAll {I V : Type} [DecidableEq I] [Inhabited V] :
    List (SynFault I V) → List (I → Option V) → (I → V) → (I → V)
  | f :: fs, st :: sts, w => synapticPostAll fs sts (restoreSitesW st f.sites w)
  | _, _, w => w

/-! ## Hook installation (`_pre_run` / `_perturb_net`) -/

/-- The topology facts `_perturb_net` reads: the injectable layer names in
order and the output-stage predicate. -/
structure HookInfo where
  injectables : List String
  isOutput : String → Bool

/-- Modelled from the spec: the round queries `_perturb_net` makes
(`any_neuronal`, `any_parametric`, `any_synaptic`; spikefi/fault.py, not
shipped), abstracted as predicates on layer names. -/
structure RoundAbs where
  anyNeuronal : String → Bool
  anyParametric : String → Bool
  anySynaptic : String → Bool

/-- The hook bookkeeping of a run: the handle registry
(`self.handles[layer][target_index][pre/post]`, `none` for an empty slot), a
fresh-handle counter, and the chronological log of registrations performed
through `register_forward_pre_hook` / `register_forward_hook`. -/
structure HookSt where
  handles : String × Nat × Nat → Option Nat
  nextId : Nat
  log : List (String × Nat × Nat)

/-- Registration of a fresh hook handle in a slot. -/
def registerHook (k : String × Nat × Nat) (st : HookSt) : HookSt :=
  { handles := fun k' => if k' = k then some st.nextId else st.handles k'
    nextId := st.nextId + 1
    log := st.log ++ [k] }

/-- Embedding of the per-layer body of `_perturb_net` (core.py lines
243-276).  Target indices follow `FaultTarget.get_index`: 0 neuronal,
1 synaptic, 2 parametric; slot 0 is the pre-hook, slot 1 the post-hook.
A neuronal pre-hook is installed on the following layer only when the layer
is not the output stage and the slot is empty; a parametric post-hook only
when its slot is empty (and the round has neuronal faults on the layer,
since the check is nested under `round.any_neuronal`); the synaptic
pre/post pair is installed together only when both slots are empty
(`not any(self.handles[layer_name][ind_syn])`). -/
def perturbLayer (hi : HookInfo) (r : RoundAbs) (lay : String) (st0 : HookSt) : HookSt :=
  let st1 :=
    if r.anyNeuronal lay = true ∧ hi.isOutput lay = false ∧ st0.handles (lay, 0, 0) = none then
      registerHook (lay, 0, 0) st0
    else st0
  let st2 :=
    if r.anyNeuronal lay = true ∧ r.anyParametric lay = true ∧ st1.handles (lay, 2, 1) = none then
      registerHook (lay, 2, 1) st1
    else st1
  if r.anySynaptic lay = true ∧ st2.handles (lay, 1, 0) = none ∧ st2.handles (lay, 1, 1) = none then
    registerHook (lay, 1, 1) (registerHook (lay, 1, 0) st2)
  else st2

/-- Embedding of `_perturb_net` (core.py lines 238-276): the per-layer body
applied to every injectable layer. -/
def perturbNet (hi : HookInfo) (r : RoundAbs) (st : HookSt) : HookSt :=
  hi.injectables.foldl (fun st lay => perturbLayer hi r lay st) st

/-- Embedding of the hook-installing part of `_pre_run` (core.py lines
205-233): starting from the cleared handle registry
(`self.handles.clear()`, line 213), `_perturb_net` runs once per round. -/
def preRunHooks (hi : HookInfo) (rs : List RoundAbs) : HookSt :=
  rs.foldl (fun st r => perturbNet hi r st) ⟨fun _ => none, 0, []⟩

/-- Registry invariant tying each slot's occupancy to the registration log:
no slot was ever registered twice, and an empty slot was never registered. -/
def HookInv (st : HookSt) : Prop :=
  ∀ k, st.log.count k ≤ 1 ∧ (st.handles k = none → st.log.count k = 0)

/-! ## Helper lemmas on `forward_opt` -/

theorem filter_range_succ (p : Nat → Bool) (n : Nat) :
    (List.range (n + 1)).filter p = (List.range n).filter p ++ (if p n then [n] else []) := by
  rw [List.range_succ, List.filter_append]
  congr 1
  simp only [List.filter]
  cases p n <;> simp

theorem filter_range_le_le_self (n i : Nat) :
    (List.range n).filter (fun j => decide (i ≤ j) && decide (j ≤ i)) =
      if i < n then [i] else [] := by
  induction n with
  | zero => simp
  | succ n ih =>
    rw [filter_range_succ, ih]
    by_cases h : i < n
    · have hne : ¬(i ≤ n ∧ n ≤ i) := by omega
      have hlt : i < n + 1 := by omega
      simp only [decide_eq_true_eq, Bool.and_eq_true]
      rw [if_pos h, if_pos hlt, if_neg hne]
      simp
    · by_cases he : i = n
      · subst he
        have hlt : i < i + 1 := by omega
        simp only [decide_eq_true_eq, Bool.and_eq_true]
        rw [if_neg h, if_pos hlt, if_pos ⟨Nat.le_refl i, Nat.le_refl i⟩]
        simp
      · have hne : ¬(i ≤ n ∧ n ≤ i) := by omega
        have hlt : ¬ i < n + 1 := by omega
        simp only [decide_eq_true_eq, Bool.and_eq_true]
        rw [if_neg h, if_neg hlt, if_neg hne]
        simp

theorem forward_opt_self {T : Type} (n : Nat) (st : Nat → T → T) (i : Nat) (x : T) :
    forward_opt n st i i x = if i < n then st i x else x := by
  unfold forward_opt
  rw [filter_range_le_le_self]
  by_cases h : i < n
  · rw [if_pos h, if_pos h]
    rfl
  · rw [if_neg h, if_neg h]
    rfl

theorem filter_le_le_succ (n a b : Nat) (hab : a ≤ b + 1) (hbn : b + 1 < n) :
    (List.range n).filter (fun j => decide (a ≤ j) && decide (j ≤ b + 1)) =
      (List.range n).filter (fun j => decide (a ≤ j) && decide (j ≤ b)) ++ [b + 1] := by
  induction n with
  | zero => omega
  | succ n ih =>
    rw [filter_range_succ, filter_range_succ]
    rcases Nat.lt_or_ge (b + 1) n with h | h
    · rw [ih h]
      have h1 : (decide (a ≤ n) && decide (n ≤ b + 1)) = false := by
        simp only [Bool.and_eq_false_iff, decide_eq_false_iff_not]
        omega
      have h2 : (decide (a ≤ n) && decide (n ≤ b)) = false := by
        simp only [Bool.and_eq_false_iff, decide_eq_false_iff_not]
        omega
      rw [h1, h2]
      simp
    · have hn : n = b + 1 := by omega
      subst hn
      have h1 : (decide (a ≤ b + 1) && decide (b + 1 ≤ b + 1)) = true := by
        simp [hab]
      have h2 : (decide (a ≤ b + 1) && decide (b + 1 ≤ b)) = false := by
        simp only [Bool.and_eq_false_iff, decide_eq_false_iff_not]
        omega
      rw [h1, h2]
      have hcongr : ∀ j ∈ List.range (b + 1),
          (decide (a ≤ j) && decide (j ≤ b + 1)) = (decide (a ≤ j) && decide (j ≤ b)) := by
        intro j hj
        rw [List.mem_range] at hj
        have hj1 : (decide (j ≤ b + 1)) = true := by simp; omega
        have hj2 : (decide (j ≤ b)) = true := by simp; omega
        rw [hj1, hj2]
      rw [List.filter_congr hcongr]
      simp

theorem forward_opt_succ_right {T : Type} (n : Nat) (st : Nat → T → T) (a b : Nat) (x : T)
    (hab : a ≤ b + 1) (hbn : b + 1 < n) :
    forward_opt n st a (b + 1) x = st (b + 1) (forward_opt n st a b x) := by
  unfold forward_opt
  rw [filter_le_le_succ n a b hab hbn, List.foldl_append]
  rfl

theorem goldenSpikes_eq_forward {T : Type} (n : Nat) (g : Nat → T → T) (input : T) :
    ∀ k, k < n → goldenSpikes n g input (k + 1) = forward_opt n g 0 k input := by
  intro k
  induction k with
  | zero =>
    intro _
    rfl
  | succ k ih =>
    intro h
    have hk : k < n := by omega
    show forward_opt n g (k + 1) (k + 1) (goldenSpikes n g input (k + 1)) = _
    rw [forward_opt_self, if_pos h, ih hk, ← forward_opt_succ_right n g 0 k input (by omega) h]

/-- C1: in the multi-round optimized evaluation path, for a non-empty round
that does not affect the output stage (with the output stage after
`late_idx + 1`, as the optimized-round invariant guarantees when the output
is not faulty): if the faulty network's output of the single stage
`late_idx + 1`, computed from the faulty sub-range's output, equals the
cached golden activation at that point, the round reports the cached final
golden activation (which equals the golden network's full forward pass);
otherwise the faulty computation continues from stage `late_idx + 2` to the
end and its result is reported. -/
theorem evaluate_optimized_early_stop {T : Type} [DecidableEq T]
    (n : Nat) (g f : Nat → T → T) (outHook : T → T) (input : T) (o : OptRound)
    (hne : o.isEmpty = false) (hof : o.is_out_faulty = false) (hlt : o.late_idx + 2 ≤ n) :
    (forward_opt n f (o.late_idx + 1) (o.late_idx + 1)
        (forward_opt n f o.early_idx o.late_idx (goldenSpikes n g input o.early_idx)) =
        goldenSpikes n g input (o.late_idx + 2) →
      evalRoundOutput n g f outHook input o = goldenSpikes n g input n ∧
      goldenSpikes n g input n = forward_opt n g 0 (n - 1) input) ∧
    (forward_opt n f (o.late_idx + 1) (o.late_idx + 1)
        (forward_opt n f o.early_idx o.late_idx (goldenSpikes n g input o.early_idx)) ≠
        goldenSpikes n g input (o.late_idx + 2) →
      evalRoundOutput n g f outHook input o =
        forward_opt n f (o.late_idx + 2) (n - 1)
          (forward_opt n f (o.late_idx + 1) (o.late_idx + 1)
            (forward_opt n f o.early_idx o.late_idx (goldenSpikes n g input o.early_idx)))) := by
  have hgs : goldenSpikes n g input n = forward_opt n g 0 (n - 1) input := by
    have hn : 1 ≤ n := by omega
    have h1 : n - 1 < n := by omega
    have h2 : n - 1 + 1 = n := by omega
    have h3 := goldenSpikes_eq_forward n g input (n - 1) h1
    rwa [h2] at h3
  constructor
  · intro hstop
    refine ⟨?_, hgs⟩
    unfold evalRoundOutput
    rw [hne, hof]
    simp only [Bool.false_eq_true, if_false]
    rw [if_pos hstop]
  · intro hstop
    unfold evalRoundOutput
    rw [hne, hof]
    simp only [Bool.false_eq_true, if_false]
    rw [if_neg hstop]

/-- Witness for C1 at a concrete three-stage network over integer tensors:
the faulty stages coincide with the golden ones, so the early-stop
comparison succeeds and the round reports the cached golden final output. -/
theorem evaluate_optimized_early_stop_witness :
    evalRoundOutput 3 (fun _ x => x + 1) (fun _ x => x + 1) id (0 : Int) ⟨0, 0, false, false⟩ =
      goldenSpikes 3 (fun _ x => x + 1) (0 : Int) 3 ∧
    goldenSpikes 3 (fun _ x => x + 1) (0 : Int) 3 =
      forward_opt 3 (fun _ x => x + 1) 0 2 (0 : Int) :=
  (evaluate_optimized_early_stop 3 (fun _ x => x + 1) (fun _ x => x + 1) id (0 : Int)
    ⟨0, 0, false, false⟩ rfl rfl (by decide)).1 rfl

/-- C3: in the multi-round optimized evaluation path an empty round reports
exactly the cached final golden activation of the batch; the reported output
does not depend on the faulty network (no faulty computation is invoked),
the cached final golden activation is the golden network's full forward
pass, and the statistics recorded for the round therefore equal those of
recording the golden output directly. -/
theorem evaluate_optimized_empty_round {T : Type} [DecidableEq T]
    (n : Nat) (g f fAlt : Nat → T → T) (outHook outHookAlt : T → T) (input : T)
    (o : OptRound) (he : o.isEmpty = true) (hn : 1 ≤ n) :
    evalRoundOutput n g f outHook input o = goldenSpikes n g input n ∧
    evalRoundOutput n g f outHook input o = evalRoundOutput n g fAlt outHookAlt input o ∧
    goldenSpikes n g input n = forward_opt n g 0 (n - 1) input ∧
    (∀ (stats : Stats) (cc : T → Nat) (nl : Nat) (lo : Option (T → Int)),
      advancePerformance cc nl lo stats (evalRoundOutput n g f outHook input o) =
        advancePerformance cc nl lo stats (goldenSpikes n g input n)) := by
  have hout : evalRoundOutput n g f outHook input o = goldenSpikes n g input n := by
    unfold evalRoundOutput
    rw [he]
    simp
  have houtAlt : evalRoundOutput n g fAlt outHookAlt input o = goldenSpikes n g input n := by
    unfold evalRoundOutput
    rw [he]
    simp
  have hgs : goldenSpikes n g input n = forward_opt n g 0 (n - 1) input := by
    have h1 : n - 1 < n := by omega
    have h2 : n - 1 + 1 = n := by omega
    have h3 := goldenSpikes_eq_forward n g input (n - 1) h1
    rwa [h2] at h3
  refine ⟨hout, hout.trans houtAlt.symm, hgs, ?_⟩
  intro stats cc nl lo
  rw [hout]

/-- Witness for C3 at a concrete two-stage network over integer tensors with
an empty round: two different faulty networks report the same golden output. -/
theorem evaluate_optimized_empty_round_witness :
    evalRoundOutput 2 (fun _ x => x + 1) (fun _ x => x * 5) id (0 : Int) ⟨0, 0, false, true⟩ =
      goldenSpikes 2 (fun _ x => x + 1) (0 : Int) 2 ∧
    evalRoundOutput 2 (fun _ x => x + 1) (fun _ x => x * 5) id (0 : Int) ⟨0, 0, false, true⟩ =
      evalRoundOutput 2 (fun _ x => x + 1) (fun _ x => x * 7) id (0 : Int) ⟨0, 0, false, true⟩ ∧
    goldenSpikes 2 (fun _ x => x + 1) (0 : Int) 2 =
      forward_opt 2 (fun _ x => x + 1) 0 1 (0 : Int) ∧
    (∀ (stats : Stats) (cc : Int → Nat) (nl : Nat) (lo : Option (Int → Int)),
      advancePerformance cc nl lo stats
          (evalRoundOutput 2 (fun _ x => x + 1) (fun _ x => x * 5) id (0 : Int) ⟨0, 0, false, true⟩) =
        advancePerformance cc nl lo stats (goldenSpikes 2 (fun _ x => x + 1) (0 : Int) 2)) :=
  evaluate_optimized_empty_round 2 (fun _ x => x + 1) (fun _ x => x * 5) (fun _ x => x * 7)
    id id (0 : Int) ⟨0, 0, false, true⟩ rfl (by omega)

/-! ## Synaptic round-trip lemmas -/

theorem perturbSitesStore_weight_notMem {I V : Type} [DecidableEq I] (pf : V → I → V) :
    ∀ (sites : List I) (w : I → V) (st : I → Option V) (j : I), j ∉ sites →
      (perturbSitesStore pf sites w st).1 j = w j := by
  intro sites
  induction sites with
  | nil => intro w st j _; rfl
  | cons s rest ih =>
    intro w st j hj
    have hjs : j ≠ s := fun h => hj (h ▸ List.mem_cons_self s rest)
    have hjr : j ∉ rest := fun h => hj (List.mem_cons_of_mem s h)
    show (perturbSitesStore pf rest (updFun w s (pf (w s) s)) _).1 j = w j
    rw [ih _ _ j hjr]
    simp [updFun, hjs]

theorem perturbSitesStore_store {I V : Type} [DecidableEq I] (pf : V → I → V) :
    ∀ (sites : List I) (w : I → V) (st : I → Option V), sites.Nodup →
      ∀ j, (perturbSitesStore pf sites w st).2 j =
        if j ∈ sites then some (w j) else st j := by
  intro sites
  induction sites with
  | nil => intro w st _ j; simp [perturbSitesStore]
  | cons s rest ih =>
    intro w st hnd j
    have hs : s ∉ rest := (List.nodup_cons.mp hnd).1
    have hr : rest.Nodup := (List.nodup_cons.mp hnd).2
    show (perturbSitesStore pf rest (updFun w s (pf (w s) s))
      (fun k => if k = s then some (w s) else st k)).2 j = _
    rw [ih _ _ hr j]
    by_cases hjr : j ∈ rest
    · have hjs : j ≠ s := fun h => hs (h ▸ hjr)
      rw [if_pos hjr, if_pos (List.mem_cons_of_mem s hjr)]
      simp [updFun, hjs]
    · rw [if_neg hjr]
      by_cases hjs : j = s
      · subst hjs
        simp
      · have : j ∉ s :: rest := by
          simp [hjs, hjr]
        simp [hjs, this]

theorem synapticPreAll_weight_notMem {I V : Type} [DecidableEq I] :
    ∀ (fs : List (SynFault I V)) (w : I → V) (j : I),
      j ∉ (fs.map SynFault.sites).flatten →
      (synapticPreAll fs w).1 j = w j := by
  intro fs
  induction fs with
  | nil => intro w j _; rfl
  | cons f rest ih =>
    intro w j hj
    rw [List.map_cons, List.flatten_cons, List.mem_append] at hj
    push_neg at hj
    show (synapticPreAll rest (perturbSitesStore f.perturb f.sites w fun _ => none).1).1 j = w j
    rw [ih _ j hj.2, perturbSitesStore_weight_notMem f.perturb f.sites w _ j hj.1]

theorem synapticPostAll_restores {I V : Type} [DecidableEq I] [Inhabited V] :
    ∀ (fs : List (SynFault I V)) (w : I → V),
      ((fs.map SynFault.sites).flatten).Nodup →
      ∀ (wAny : I → V) (j : I),
        synapticPostAll fs (synapticPreAll fs w).2 wAny j =
          if j ∈ (fs.map SynFault.sites).flatten then w j else wAny j := by
  intro fs
  induction fs with
  | nil => intro w _ wAny j; simp [synapticPostAll, synapticPreAll]
  | cons f rest ih =>
    intro w hnd wAny j
    rw [List.map_cons, List.flatten_cons] at hnd ⊢
    have hparts := List.nodup_append.mp hnd
    have hf : f.sites.Nodup := hparts.1
    have hrest : ((rest.map SynFault.sites).flatten).Nodup := hparts.2.1
    have hdisj : f.sites.Disjoint ((rest.map SynFault.sites).flatten) := hparts.2.2
    show synapticPostAll rest (synapticPreAll rest (perturbSitesStore f.perturb f.sites w fun _ => none).1).2
          (restoreSitesW (perturbSitesStore f.perturb f.sites w fun _ => none).2 f.sites wAny) j = _
    rw [ih _ hrest _ j]
    by_cases hjr : j ∈ (rest.map SynFault.sites).flatten
    · have hjf : j ∉ f.sites := fun h => hdisj h hjr
      rw [if_pos hjr, if_pos (List.mem_append.mpr (Or.inr hjr))]
      exact perturbSitesStore_weight_notMem f.perturb f.sites w _ j hjf
    · rw [if_neg hjr]
      have hres : ∀ (st : I → Option V) (sites : List I) (wA : I → V) (k : I),
          restoreSitesW st sites wA k =
            if k ∈ sites then (st k).getD default else wA k := by
        intro st sites
        induction sites with
        | nil => intro wA k; simp [restoreSitesW]
        | cons s srest sih =>
          intro wA k
          show restoreSitesW st srest (updFun wA s ((st s).getD default)) k = _
          rw [sih]
          by_cases hks : k ∈ srest
          · rw [if_pos hks, if_pos (List.mem_cons_of_mem s hks)]
          · rw [if_neg hks]
            by_cases hk : k = s
            · subst hk
              simp [updFun]
            · have : k ∉ s :: srest := by simp [hk, hks]
              simp [updFun, hk, this]
      rw [hres]
      by_cases hjf : j ∈ f.sites
      · rw [if_pos hjf, if_pos (List.mem_append.mpr (Or.inl hjf))]
        rw [perturbSitesStore_store f.perturb f.sites w _ hf j, if_pos hjf]
        rfl
      · have : j ∉ f.sites ++ (rest.map SynFault.sites).flatten := by
          rw [List.mem_append]
          intro h
          rcases h with h | h
          · exact hjf h
          · exact hjr h
        rw [if_neg hjf, if_neg this]

/-- C2 (amended): the synaptic pre-hook perturbs and saves, the post-hook
restores; for a layer bearing synaptic faults in the active round whose
faulted sites are pairwise distinct across the round's faults (sites are
unique within each fault by the data-model invariant, but nothing
deduplicates across faults), one full forward pass leaves the weight value
at every index, and in particular at every faulted site, exactly at its
pre-pass original value.  Without the distinctness proviso the round-trip
fails: a later fault saves an already-perturbed value and its restoration,
running after the owning fault's, writes that perturbed value back. -/
theorem synaptic_round_trip {I V : Type} [DecidableEq I] [Inhabited V]
    (fs : List (SynFault I V)) (w : I → V)
    (hnd : ((fs.map SynFault.sites).flatten).Nodup) :
    ∀ j, synapticPostAll fs (synapticPreAll fs w).2 (synapticPreAll fs w).1 j = w j := by
  intro j
  rw [synapticPostAll_restores fs w hnd (synapticPreAll fs w).1 j]
  by_cases hj : j ∈ (fs.map SynFault.sites).flatten
  · rw [if_pos hj]
  · rw [if_neg hj]
    exact synapticPreAll_weight_notMem fs w j hj

/-- Witness for C2 at a concrete fault list over natural-number indexed
integer weights: a single fault perturbing sites 0 and 1 by adding 7; after
the pre/post pair the weight at site 0 is back to its original value 5. -/
theorem synaptic_round_trip_witness :
    synapticPostAll [⟨[0, 1], fun v _ => v + 7⟩]
        (synapticPreAll [(⟨[0, 1], fun v _ => v + 7⟩ : SynFault Nat Int)] (fun _ => 5)).2
        (synapticPreAll [(⟨[0, 1], fun v _ => v + 7⟩ : SynFault Nat Int)] (fun _ => 5)).1 0 = 5 :=
  synaptic_round_trip [(⟨[0, 1], fun v _ => v + 7⟩ : SynFault Nat Int)] (fun _ => 5)
    (by simp) 0

/-- C2 counterexample: two synaptic faults of the same round sharing the
faulted site 0 (reachable through `inject`, which never deduplicates sites
across faults) on a weight originally 5: the first fault stores 5 and
perturbs to 12, the second stores 12 and perturbs to 112; the post-hook
restores 5 and then overwrites it with the second fault's stored 12, so
after the full forward pass the weight at the faulted site is 12, not its
pre-pass original value 5 — the perturb-then-restore pair is not an exact
round-trip at every faulted site as the claim states. -/
theorem synaptic_round_trip_counterexample :
    synapticPostAll [(⟨[0], fun v _ => v + 7⟩ : SynFault Nat Int), ⟨[0], fun v _ => v + 100⟩]
        (synapticPreAll [(⟨[0], fun v _ => v + 7⟩ : SynFault Nat Int), ⟨[0], fun v _ => v + 100⟩]
          (fun _ => 5)).2
        (synapticPreAll [(⟨[0], fun v _ => v + 7⟩ : SynFault Nat Int), ⟨[0], fun v _ => v + 100⟩]
          (fun _ => 5)).1 0 = 12 ∧
    (12 : Int) ≠ 5 := by
  exact ⟨rfl, by decide⟩

/-! ## Hook installation lemmas -/


theorem registerHook_preserves (k : String × Nat × Nat) (st : HookSt)
    (hinv : HookInv st) (hk : st.handles k = none) : HookInv (registerHook k st) := by
  intro k'
  have hcount : (st.log ++ [k]).count k' = st.log.count k' + (if k' = k then 1 else 0) := by
    rw [List.count_append]
    by_cases h : k' = k
    · subst h
      simp [List.count_singleton]
    · simp [List.count_singleton, h]
  constructor
  · show (st.log ++ [k]).count k' ≤ 1
    rw [hcount]
    by_cases h : k' = k
    · subst h
      rw [(hinv k').2 hk]
      simp
    · rw [if_neg h]
      have := (hinv k').1
      omega
  · intro hnone
    show (st.log ++ [k]).count k' = 0
    have hne : k' ≠ k := by
      intro h
      subst h
      simp [registerHook] at hnone
    rw [hcount, if_neg hne]
    have : st.handles k' = none := by
      have := hnone
      simp [registerHook, hne] at this
      exact this
    rw [(hinv k').2 this]

theorem registerHook_handles_other (k k' : String × Nat × Nat) (st : HookSt)
    (h : k' ≠ k) : (registerHook k st).handles k' = st.handles k' := by
  simp [registerHook, h]

theorem perturbLayer_preserves (hi : HookInfo) (r : RoundAbs) (lay : String)
    (st0 : HookSt) (hinv : HookInv st0) : HookInv (perturbLayer hi r lay st0) := by
  unfold perturbLayer
  have step1 : ∀ st : HookSt, HookInv st → HookInv
      (if r.anyNeuronal lay = true ∧ hi.isOutput lay = false ∧ st.handles (lay, 0, 0) = none then
        registerHook (lay, 0, 0) st else st) := by
    intro st h
    split
    · next hc => exact registerHook_preserves _ _ h hc.2.2
    · exact h
  have step2 : ∀ st : HookSt, HookInv st → HookInv
      (if r.anyNeuronal lay = true ∧ r.anyParametric lay = true ∧ st.handles (lay, 2, 1) = none then
        registerHook (lay, 2, 1) st else st) := by
    intro st h
    split
    · next hc => exact registerHook_preserves _ _ h hc.2.2
    · exact h
  have step3 : ∀ st : HookSt, HookInv st → HookInv
      (if r.anySynaptic lay = true ∧ st.handles (lay, 1, 0) = none ∧ st.handles (lay, 1, 1) = none then
        registerHook (lay, 1, 1) (registerHook (lay, 1, 0) st) else st) := by
    intro st h
    split
    · next hc =>
      refine registerHook_preserves _ _ (registerHook_preserves _ _ h hc.2.1) ?_
      rw [registerHook_handles_other (lay, 1, 0) (lay, 1, 1) st (by
        intro hcontra
        have h10 := congrArg (fun p => p.2.2) hcontra
        simp at h10)]
      exact hc.2.2
    · exact h
  exact step3 _ (step2 _ (step1 _ hinv))

theorem foldl_preserves {A S : Type} (P : S → Prop) (step : S → A → S)
    (h : ∀ s a, P s → P (step s a)) : ∀ (l : List A) (s : S), P s → P (List.foldl step s l)
  | [], _, hs => hs
  | a :: l, s, hs => foldl_preserves P step h l (step s a) (h s a hs)

/-- C6: over one run's hook installation, for every layer, fault target and
pre/post slot, at most one hook handle is ever registered, no matter how
many rounds target the same layer and target. -/
theorem hook_installation_idempotent (hi : HookInfo) (rs : List RoundAbs)
    (k : String × Nat × Nat) : (preRunHooks hi rs).log.count k ≤ 1 := by
  have hinit : HookInv ⟨fun _ => none, 0, []⟩ := by
    intro k'
    simp [List.count_nil]
  have hstep : ∀ (st : HookSt) (r : RoundAbs), HookInv st → HookInv (perturbNet hi r st) := by
    intro st r h
    exact foldl_preserves HookInv (fun st lay => perturbLayer hi r lay st)
      (fun s a hs => perturbLayer_preserves hi r a s hs) hi.injectables st h
  have hfinal : HookInv (preRunHooks hi rs) :=
    foldl_preserves HookInv (fun st r => perturbNet hi r st) hstep rs _ hinit
  exact (hfinal k).1

/-! ## Round bookkeeping theorems -/

/-- C8: `eject` with `round_idx` provided as `0` is indistinguishable from a
call with no `round_idx` at all: `0` is falsy, so the eject-from-all-rounds
branch is taken instead of ejecting from round 0 specifically. -/
theorem eject_zero_round_idx_falsy :
    ∀ (ofs : Option (List FaultM)) (rounds : List RoundM),
      eject ofs (some 0) rounds = eject ofs none rounds := by
  intro ofs rounds
  rfl

/-- C7 (code bug): ejecting a non-empty fault list with no `round_idx` from
a campaign whose only round holds exactly those faults empties the round,
upon which line 175 of core.py executes `self.rounds.pop(r)` with the round
object as the argument of `list.pop` and raises `TypeError` instead of
completing and removing the emptied round. -/
theorem eject_empty_round_type_error :
    eject (some [⟨false, false, true, [⟨"SF1", none, 0, 0, 0⟩]⟩]) none
        [[⟨false, false, true, [⟨"SF1", none, 0, 0, 0⟩]⟩]] =
      .error "TypeError: FaultRound object cannot be interpreted as an integer" := by
  rfl

/-- C9: `inject` with a round index outside `[-len(rounds), len(rounds))`
fails with the descriptive range error of the assert on core.py line 76
before anything is randomized, validated or inserted; with an index inside
the range (negative indices included) no error occurs and the faults that
survive validation are inserted into the round at that index and returned. -/
theorem inject_round_idx_range (li : SfLayersInfo) (fs : List FaultM) (ridx : Int)
    (st : CampaignSt) :
    (¬(-(st.rounds.length : Int) ≤ ridx ∧ ridx < (st.rounds.length : Int)) →
      inject li fs ridx st = .error "Invalid round index") ∧
    ((-(st.rounds.length : Int) ≤ ridx ∧ ridx < (st.rounds.length : Int)) →
      inject li fs ridx st =
        .ok (⟨listUpdate st.rounds (pyIndex st.rounds.length ridx)
          (fun r => r ++ validate li fs)⟩, validate li fs)) := by
  constructor
  · intro h
    unfold inject
    rw [if_neg h]
  · intro h
    unfold inject
    rw [if_pos h]

/-- Witness for C9 on a one-round campaign: index 5 is rejected with the
range error, index 0 is accepted and inserts the surviving faults. -/
theorem inject_round_idx_range_witness :
    inject ⟨fun _ => false, fun _ => (0, 0, 0, 0), fun _ => (0, 0, 0)⟩ [] 5 ⟨[[]]⟩ =
        .error "Invalid round index" ∧
    inject ⟨fun _ => false, fun _ => (0, 0, 0, 0), fun _ => (0, 0, 0)⟩ [] 0 ⟨[[]]⟩ =
        .ok (⟨listUpdate [[]] (pyIndex 1 0)
          (fun r => r ++ validate ⟨fun _ => false, fun _ => (0, 0, 0, 0), fun _ => (0, 0, 0)⟩ [])⟩,
          validate ⟨fun _ => false, fun _ => (0, 0, 0, 0), fun _ => (0, 0, 0)⟩ []) :=
  ⟨(inject_round_idx_range ⟨fun _ => false, fun _ => (0, 0, 0, 0), fun _ => (0, 0, 0)⟩ [] 5
      ⟨[[]]⟩).1 (by decide),
   (inject_round_idx_range ⟨fun _ => false, fun _ => (0, 0, 0, 0), fun _ => (0, 0, 0)⟩ [] 0
      ⟨[[]]⟩).2 (by decide)⟩

/-- C10: a freshly constructed campaign holds exactly one round and that
round is empty; the first `inject` with the default index `-1` therefore
lands in this pre-existing baseline round (the round count stays one and
the baseline round now holds the surviving faults) rather than creating a
new round. -/
theorem init_single_empty_round :
    initRounds.rounds = [[]] ∧ initRounds.rounds.length = 1 ∧
    (∀ (li : SfLayersInfo) (fs : List FaultM),
      inject li fs (-1) initRounds = .ok (⟨[validate li fs]⟩, validate li fs)) := by
  refine ⟨rfl, rfl, fun li fs => ?_⟩
  unfold inject
  rw [if_pos (by decide)]
  have hidx : pyIndex initRounds.rounds.length (-1) = 0 := by decide
  rw [hidx]
  rfl

/-! ## Validation theorems -/

theorem inRangeI_eq_true_iff (c : Int) (d : Nat) :
    inRangeI c d = true ↔ (-(d : Int) ≤ c ∧ c < (d : Int)) := by
  simp [inRangeI]

/-- C4: for a fault that passes the parametric-support check (the claim
addresses site retention, which core.py lines 130-144 decide) and whose
synaptic sites carry a concrete channel (always true for sites produced by
`define_random`), `validate` keeps a site exactly when its layer is
injectable and every concrete coordinate `c` addressing an axis of
registered size `dim` satisfies `-dim ≤ c < dim`; the surviving fault keeps
exactly the filtered sites and a fault whose site set becomes empty is
excluded from the returned list, all without raising an error.  On an axis
of size `N` the coordinate `-1` passes while `N` and `-N-1` fail. -/
theorem validate_site_semantics (li : SfLayersInfo) (f : FaultM)
    (hp : ¬(f.is_param = true ∧ f.param_ok = false))
    (hsyn : f.is_syn = true → ∀ s ∈ f.sites, s.pos0.isSome = true) :
    (∀ s ∈ f.sites, (validSite li f.is_syn s = true ↔ siteValidSpec li f.is_syn s)) ∧
    (validateFault li f = none ↔ f.sites.filter (validSite li f.is_syn) = []) ∧
    (∀ g, validateFault li f = some g → g.sites = f.sites.filter (validSite li f.is_syn)) ∧
    (∀ N : Nat, 0 < N → inRangeI (-1) N = true) ∧
    (∀ N : Nat, inRangeI (N : Int) N = false) ∧
    (∀ N : Nat, inRangeI (-(N : Int) - 1) N = false) := by
  have hpb : (f.is_param && !f.param_ok) = false := by
    cases hip : f.is_param <;> cases hok : f.param_ok <;> simp_all
  refine ⟨?_, ?_, ?_, ?_, ?_, ?_⟩
  · intro s hs
    unfold validSite siteValidSpec
    cases hsynb : f.is_syn
    · simp only [if_false, Bool.false_eq_true]
      rw [Bool.and_eq_true, Bool.and_eq_true, Bool.and_eq_true]
      rw [inRangeI_eq_true_iff, inRangeI_eq_true_iff, inRangeI_eq_true_iff]
      tauto
    · have hc := hsyn hsynb s hs
      rcases hpos : s.pos0 with _ | c
      · rw [hpos] at hc
        simp at hc
      · simp only [if_true, hpos]
        rw [Bool.and_eq_true, Bool.and_eq_true, Bool.and_eq_true, Bool.and_eq_true]
        rw [inRangeI_eq_true_iff, inRangeI_eq_true_iff, inRangeI_eq_true_iff,
          inRangeI_eq_true_iff]
        unfold coordInRangeSpec
        constructor
        · rintro ⟨hi, ⟨⟨⟨h0, h1⟩, h2⟩, h3⟩⟩
          refine ⟨hi, ?_, h1, h2, h3⟩
          intro v hv
          cases hv
          exact h0
        · rintro ⟨hi, h0, h1, h2, h3⟩
          exact ⟨hi, ⟨⟨⟨h0 c rfl, h1⟩, h2⟩, h3⟩⟩
  · unfold validateFault
    rw [hpb]
    simp only [Bool.false_eq_true, if_false]
    constructor
    · intro h
      by_cases he : (f.sites.filter (validSite li f.is_syn)).isEmpty
      · exact List.isEmpty_iff.mp he
      · rw [if_neg he] at h
        cases h
    · intro h
      rw [if_pos (by rw [h]; rfl)]
  · intro g hg
    unfold validateFault at hg
    rw [hpb] at hg
    simp only [Bool.false_eq_true, if_false] at hg
    by_cases he : (f.sites.filter (validSite li f.is_syn)).isEmpty
    · rw [if_pos he] at hg
      cases hg
    · rw [if_neg he] at hg
      cases hg
      rfl
  · intro N hN
    rw [inRangeI_eq_true_iff]
    omega
  · intro N
    simp [inRangeI]
  · intro N
    simp only [inRangeI, Bool.and_eq_false_iff, decide_eq_false_iff_not]
    omega

/-- Witness for C4 on a neuronal fault with a single in-range site carrying
a negative coordinate `-1` on axes of size 2: the site passes the code's
check and the specification-side characterization agrees. -/
theorem validate_site_semantics_witness :
    validSite ⟨fun _ => true, fun _ => (2, 2, 2, 2), fun _ => (2, 2, 2)⟩ false
        ⟨"SF1", none, -1, 0, 1⟩ = true ↔
      siteValidSpec ⟨fun _ => true, fun _ => (2, 2, 2, 2), fun _ => (2, 2, 2)⟩ false
        ⟨"SF1", none, -1, 0, 1⟩ :=
  (validate_site_semantics ⟨fun _ => true, fun _ => (2, 2, 2, 2), fun _ => (2, 2, 2)⟩
      ⟨false, false, true, [⟨"SF1", none, -1, 0, 1⟩]⟩
      (by simp)
      (by intro h; cases h)).1
    ⟨"SF1", none, -1, 0, 1⟩ (by simp)

/-! ## Exhaustive-sweep lemmas -/

theorem listUpdate_append_singleton {A : Type} (xs : List A) (a : A) (f : A → A) :
    listUpdate (xs ++ [a]) xs.length f = xs ++ [f a] := by
  induction xs with
  | nil => rfl
  | cons x xs ih =>
    show x :: listUpdate (xs ++ [a]) xs.length f = x :: (xs ++ [f a])
    rw [ih]

theorem validate_singleton_valid (li : SfLayersInfo) (f : FaultM)
    (hp : (f.is_param && !f.param_ok) = false)
    (hs : f.sites.filter (validSite li f.is_syn) = f.sites) (hne : f.sites ≠ []) :
    validate li [f] = [f] := by
  have hvf : validateFault li f = some f := by
    unfold validateFault
    rw [hp]
    simp only [Bool.false_eq_true, if_false]
    rw [if_neg (by rw [hs]; exact fun h => hne (List.isEmpty_iff.mp h))]
    rw [hs]
  unfold validate
  simp [List.filterMap_cons, hvf]

theorem then_inject_valid (li : SfLayersInfo) (f : FaultM) (st : CampaignSt)
    (hv : validate li [f] = [f]) :
    then_inject li [f] st = .ok (⟨st.rounds ++ [[f]]⟩, [f]) := by
  unfold then_inject inject
  have hlen : ((st.rounds ++ [([] : RoundM)]) : List RoundM).length = st.rounds.length + 1 := by
    simp
  rw [if_pos (by rw [hlen]; push_cast; omega)]
  have hidx : pyIndex ((st.rounds ++ [([] : RoundM)]) : List RoundM).length (-1) =
      st.rounds.length := by
    rw [hlen]
    unfold pyIndex
    rw [if_pos (by omega)]
    omega
  rw [hv, hidx]
  show Except.ok (ε := String)
      ((⟨listUpdate (st.rounds ++ [([] : RoundM)]) st.rounds.length fun r => r ++ [f]⟩ : CampaignSt),
        [f]) = _
  rw [listUpdate_append_singleton]
  rfl

theorem validate_mkCompleteFault (li : SfLayersInfo) (isp pok : Bool) (lay : String)
    (l m n : Nat) (hp : (isp && !pok) = false) (hinj : li.injectable lay = true)
    (hl : l < (li.shapeNeu lay).1) (hm : m < (li.shapeNeu lay).2.1)
    (hw : n < (li.shapeNeu lay).2.2) :
    validate li [mkCompleteFault isp pok lay l m n] = [mkCompleteFault isp pok lay l m n] := by
  have hsv : validSite li false ⟨lay, none, (l : Int), (m : Int), (n : Int)⟩ = true := by
    unfold validSite
    simp only [Bool.false_eq_true, if_false, Bool.and_eq_true]
    rw [inRangeI_eq_true_iff, inRangeI_eq_true_iff, inRangeI_eq_true_iff]
    refine ⟨hinj, ⟨?_, ?_⟩, ?_⟩ <;> constructor <;> omega
  refine validate_singleton_valid li _ hp ?_ (by simp [mkCompleteFault])
  show List.filter (validSite li false) [(⟨lay, none, (l : Int), (m : Int), (n : Int)⟩ : FaultSiteM)] =
    [(⟨lay, none, (l : Int), (m : Int), (n : Int)⟩ : FaultSiteM)]
  rw [List.filter_cons, hsv]
  simp

theorem run_complete_fold (li : SfLayersInfo) (isp pok : Bool) (lay : String) :
    ∀ (cs : List (Nat × Nat × Nat)) (st : CampaignSt),
      (∀ c ∈ cs, validate li [mkCompleteFault isp pok lay c.1 c.2.1 c.2.2] =
        [mkCompleteFault isp pok lay c.1 c.2.1 c.2.2]) →
      (cs.foldl (fun st c =>
        match then_inject li [mkCompleteFault isp pok lay c.1 c.2.1 c.2.2] st with
        | .ok p => p.1
        | .error _ => st) st).rounds =
        st.rounds ++ cs.map (fun c => [mkCompleteFault isp pok lay c.1 c.2.1 c.2.2]) := by
  intro cs
  induction cs with
  | nil => intro st _; simp
  | cons c cs ih =>
    intro st hv
    have hc := hv c (List.mem_cons_self c cs)
    have hstep := then_inject_valid li (mkCompleteFault isp pok lay c.1 c.2.1 c.2.2) st hc
    show (List.foldl _ (match then_inject li [mkCompleteFault isp pok lay c.1 c.2.1 c.2.2] st with
        | .ok p => p.1
        | .error _ => st) cs).rounds = _
    rw [hstep]
    rw [ih _ (fun d hd => hv d (List.mem_cons_of_mem c hd))]
    simp

theorem length_flatMap_const {A B : Type} (l : List A) (f : A → List B) (k : Nat)
    (h : ∀ a ∈ l, (f a).length = k) : (l.flatMap f).length = l.length * k := by
  induction l with
  | nil => simp
  | cons a l ih =>
    rw [List.flatMap_cons, List.length_append, h a (List.mem_cons_self a l),
      ih (fun b hb => h b (List.mem_cons_of_mem a hb)), List.length_cons, Nat.succ_mul]
    omega

theorem length_enumShape (C H W : Nat) : (enumShape C H W).length = C * H * W := by
  unfold enumShape
  rw [length_flatMap_const _ _ (H * W)]
  · rw [List.length_range, Nat.mul_assoc]
  · intro a _
    rw [length_flatMap_const _ _ W]
    · rw [List.length_range]
    · intro b _
      rw [List.length_map, List.length_range]

theorem mem_enumShape (C H W l m n : Nat) :
    (l, m, n) ∈ enumShape C H W ↔ (l < C ∧ m < H ∧ n < W) := by
  unfold enumShape
  constructor
  · intro h
    rcases List.mem_flatMap.mp h with ⟨a, ha, h2⟩
    rcases List.mem_flatMap.mp h2 with ⟨b, hb, h3⟩
    rcases List.mem_map.mp h3 with ⟨c, hc, h4⟩
    cases h4
    exact ⟨List.mem_range.mp ha, List.mem_range.mp hb, List.mem_range.mp hc⟩
  · rintro ⟨hl, hm, hn⟩
    refine List.mem_flatMap.mpr ⟨l, List.mem_range.mpr hl, ?_⟩
    refine List.mem_flatMap.mpr ⟨m, List.mem_range.mpr hm, ?_⟩
    exact List.mem_map.mpr ⟨n, List.mem_range.mpr hn, rfl⟩

theorem nodup_flatMap_manual {A B : Type} (l : List A) (f : A → List B)
    (h1 : ∀ a ∈ l, (f a).Nodup)
    (h2 : List.Pairwise (fun a b => ∀ x ∈ f a, x ∉ f b) l) : (l.flatMap f).Nodup := by
  induction l with
  | nil => simp
  | cons a l ih =>
    rw [List.flatMap_cons]
    rcases List.pairwise_cons.mp h2 with ⟨ha, hl⟩
    refine List.Nodup.append (h1 a (List.mem_cons_self a l))
      (ih (fun b hb => h1 b (List.mem_cons_of_mem a hb)) hl) ?_
    intro x hx hx2
    rcases List.mem_flatMap.mp hx2 with ⟨b, hb, hxb⟩
    exact ha b hb x hx hxb

theorem nodup_enumShape (C H W : Nat) : (enumShape C H W).Nodup := by
  unfold enumShape
  have hinner2 : ∀ a b : Nat, ∀ x ∈ (List.range W).map (fun n => (a, b, n)), x.2.2 ∈ List.range W ∧ x.1 = a ∧ x.2.1 = b := by
    intro a b x hx
    rcases List.mem_map.mp hx with ⟨c, hc, h⟩
    cases h
    exact ⟨hc, rfl, rfl⟩
  have hinner1 : ∀ a : Nat, ∀ x ∈ (List.range H).flatMap (fun m => (List.range W).map fun n => (a, m, n)), x.1 = a := by
    intro a x hx
    rcases List.mem_flatMap.mp hx with ⟨b, _, hxb⟩
    exact (hinner2 a b x hxb).2.1
  refine nodup_flatMap_manual _ _ ?_ ?_
  · intro a _
    refine nodup_flatMap_manual _ _ ?_ ?_
    · intro b _
      refine List.Nodup.map ?_ (List.nodup_range W)
      intro x y hxy
      have := congrArg (fun p => p.2.2) hxy
      exact this
    · have hne := List.nodup_range H
      refine List.Pairwise.imp ?_ hne
      intro b b2 hbb x hx hx2
      have h1 := (hinner2 a b x hx).2.2
      have h2 := (hinner2 a b2 x hx2).2.2
      exact hbb (h1 ▸ h2)
  · have hne := List.nodup_range C
    refine List.Pairwise.imp ?_ hne
    intro a a2 haa x hx hx2
    have h1 := hinner1 a x hx
    have h2 := hinner1 a2 x hx2
    exact haa (h1 ▸ h2)

theorem mkCompleteFault_injective (isp pok : Bool) (lay : String) :
    Function.Injective (fun c : Nat × Nat × Nat =>
      ([mkCompleteFault isp pok lay c.1 c.2.1 c.2.2] : RoundM)) := by
  rintro ⟨a, b, c⟩ ⟨a2, b2, c2⟩ h
  simp only [mkCompleteFault, List.cons.injEq, FaultM.mk.injEq, FaultSiteM.mk.injEq,
    and_true, true_and] at h
  have ha : a = a2 := by exact_mod_cast h.1
  have hb : b = b2 := by exact_mod_cast h.2.1
  have hc : c = c2 := by exact_mod_cast h.2.2
  rw [ha, hb, hc]

theorem filter_eq_length_one {A : Type} (p : A → Bool) :
    ∀ (l : List A), l.Nodup → ∀ a, a ∈ l → p a = true → (∀ b, p b = true → b = a) →
      (l.filter p).length = 1 := by
  intro l
  induction l with
  | nil => intro _ a ha; cases ha
  | cons x xs ih =>
    intro hnd a ha hpa huniq
    have hx : x ∉ xs := (List.nodup_cons.mp hnd).1
    rcases List.mem_cons.mp ha with hax | hax
    · subst hax
      rw [List.filter_cons, if_pos (by rw [hpa])]
      have hfe : xs.filter p = [] := by
        rw [List.filter_eq_nil_iff]
        intro b hb hpb
        rw [huniq b hpb] at hb
        exact hx hb
      rw [hfe]
      rfl
    · have hxa : x ≠ a := by
        intro h
        rw [h] at hx
        exact hx hax
      have hpx : ¬(p x = true) := by
        intro h
        exact hxa (huniq x h)
      rw [List.filter_cons, if_neg hpx]
      exact ih (List.nodup_cons.mp hnd).2 a hax hpa huniq

/-- C5: `run_complete` with a non-synaptic fault model (passing the
parametric-support check) on a single injectable layer of neuronal shape
`(C, H, W)` leaves the campaign with exactly `C * H * W` rounds whatever
rounds existed before (they are cleared first: the result does not depend
on `st0`), each round holding exactly one fault with a single site that
carries the wildcard on component 0 and a concrete coordinate `(l, m, n)`
of the shape, and every coordinate of the shape is covered exactly once. -/
theorem run_complete_enumeration (li : SfLayersInfo) (isp pok : Bool) (lay : String)
    (st0 : CampaignSt) (C H W : Nat) (hsh : li.shapeNeu lay = (C, H, W))
    (hp : (isp && !pok) = false) (hinj : li.injectable lay = true)
    (hC : 0 < C) (hH : 0 < H) (hW : 0 < W) :
    run_complete_rounds li isp pok lay st0 = run_complete_rounds li isp pok lay ⟨[]⟩ ∧
    (run_complete_rounds li isp pok lay st0).rounds.length = C * H * W ∧
    (∀ r ∈ (run_complete_rounds li isp pok lay st0).rounds,
      ∃ l m n, l < C ∧ m < H ∧ n < W ∧ r = [mkCompleteFault isp pok lay l m n]) ∧
    (∀ l m n, l < C → m < H → n < W →
      ((run_complete_rounds li isp pok lay st0).rounds.filter
        (fun r => decide (r = [mkCompleteFault isp pok lay l m n]))).length = 1) := by
  have hvalid : ∀ c ∈ enumShape C H W,
      validate li [mkCompleteFault isp pok lay c.1 c.2.1 c.2.2] =
        [mkCompleteFault isp pok lay c.1 c.2.1 c.2.2] := by
    rintro ⟨a, b, c⟩ hc
    rcases (mem_enumShape C H W a b c).mp hc with ⟨ha, hb, hcc⟩
    exact validate_mkCompleteFault li isp pok lay a b c hp hinj
      (by rw [hsh]; exact ha) (by rw [hsh]; exact hb) (by rw [hsh]; exact hcc)
  have hfold := run_complete_fold li isp pok lay (enumShape C H W) ⟨[]⟩ hvalid
  have hrounds : (run_complete_rounds li isp pok lay st0).rounds =
      (enumShape C H W).map (fun c => ([mkCompleteFault isp pok lay c.1 c.2.1 c.2.2] : RoundM)) := by
    show (preRunAdjust ((enumShape (li.shapeNeu lay).1 (li.shapeNeu lay).2.1
      (li.shapeNeu lay).2.2).foldl (fun st c =>
        match then_inject li [mkCompleteFault isp pok lay c.1 c.2.1 c.2.2] st with
        | .ok p => p.1
        | .error _ => st) ⟨[]⟩)).rounds = _
    have h1 : (li.shapeNeu lay).1 = C := by rw [hsh]
    have h2 : (li.shapeNeu lay).2.1 = H := by rw [hsh]
    have h3 : (li.shapeNeu lay).2.2 = W := by rw [hsh]
    rw [h1, h2, h3]
    have hlen : ((enumShape C H W).foldl (fun st c =>
        match then_inject li [mkCompleteFault isp pok lay c.1 c.2.1 c.2.2] st with
        | .ok p => p.1
        | .error _ => st) ⟨[]⟩).rounds.length = C * H * W := by
      rw [hfold]
      simp [length_enumShape]
    have hne : ¬(((enumShape C H W).foldl (fun st c =>
        match then_inject li [mkCompleteFault isp pok lay c.1 c.2.1 c.2.2] st with
        | .ok p => p.1
        | .error _ => st) ⟨[]⟩).rounds.isEmpty = true) := by
      rw [List.isEmpty_iff]
      intro h
      rw [h] at hlen
      simp at hlen
      rcases hlen with h | h | h <;> omega
    unfold preRunAdjust
    rw [if_neg hne, hfold, List.nil_append]
  refine ⟨rfl, ?_, ?_, ?_⟩
  · rw [hrounds, List.length_map, length_enumShape]
  · intro r hr
    rw [hrounds] at hr
    rcases List.mem_map.mp hr with ⟨⟨a, b, c⟩, hc, h⟩
    rcases (mem_enumShape C H W a b c).mp hc with ⟨ha, hb, hcc⟩
    exact ⟨a, b, c, ha, hb, hcc, h.symm⟩
  · intro l m n hl hm hn
    rw [hrounds]
    have hmem : ([mkCompleteFault isp pok lay l m n] : RoundM) ∈
        (enumShape C H W).map (fun c => ([mkCompleteFault isp pok lay c.1 c.2.1 c.2.2] : RoundM)) :=
      List.mem_map_of_mem _ ((mem_enumShape C H W l m n).mpr ⟨hl, hm, hn⟩)
    have hnd : ((enumShape C H W).map
        (fun c => ([mkCompleteFault isp pok lay c.1 c.2.1 c.2.2] : RoundM))).Nodup :=
      (nodup_enumShape C H W).map (mkCompleteFault_injective isp pok lay)
    refine filter_eq_length_one _ _ hnd ([mkCompleteFault isp pok lay l m n] : RoundM) hmem
      (by simp) ?_
    intro b hb
    exact of_decide_eq_true hb

/-- Witness for C5: a layer of neuronal shape `(3, 1, 1)` with two
pre-existing rounds in the campaign ends up with exactly three rounds, and
the coordinate `(1, 0, 0)` is covered by exactly one round. -/
theorem run_complete_enumeration_witness :
    (run_complete_rounds ⟨fun _ => true, fun _ => (1, 1, 1, 1), fun _ => (3, 1, 1)⟩
        false true "SF1" ⟨[[], []]⟩).rounds.length = 3 * 1 * 1 ∧
    ((run_complete_rounds ⟨fun _ => true, fun _ => (1, 1, 1, 1), fun _ => (3, 1, 1)⟩
        false true "SF1" ⟨[[], []]⟩).rounds.filter
      (fun r => decide (r = [mkCompleteFault false true "SF1" 1 0 0]))).length = 1 :=
  ⟨(run_complete_enumeration ⟨fun _ => true, fun _ => (1, 1, 1, 1), fun _ => (3, 1, 1)⟩
      false true "SF1" ⟨[[], []]⟩ 3 1 1 rfl rfl rfl (by decide) (by decide) (by decide)).2.1,
   (run_complete_enumeration ⟨fun _ => true, fun _ => (1, 1, 1, 1), fun _ => (3, 1, 1)⟩
      false true "SF1" ⟨[[], []]⟩ 3 1 1 rfl rfl rfl (by decide) (by decide) (by decide)).2.2.2
     1 0 0 (by decide) (by decide) (by decide)⟩

end SpikeFI
